import Mathlib

/-!
Verification of `changes.py` from the track-git-changes repository.

The program has three pure cores, embedded shallowly below:

* `get_commit_touch_counts` (lines 51-69): the counting loop over the raw
  `git log --pretty=format: --name-only` output. The process management
  (directory changes, subprocess invocation) is outside the embedding; the
  raw git output is taken as an opaque input string. The Python string
  operations the loop uses (`splitlines`, `strip`, `startswith`, slicing,
  `lstrip`) are modelled by explicit recursive functions over `List Char`
  (a `String` is a packed `List Char`), so that every definition computes
  by kernel reduction. `str.splitlines` is modelled as splitting on the
  newline character: the sole difference (Python drops a trailing empty
  fragment and also splits on rarer terminators like `\r`, which
  `str.strip` removes anyway) is erased by the emptiness check the loop
  itself performs on every stripped line. The `collections.defaultdict(int)`
  counter is modelled as an association list in insertion order
  (`bumpCount`).

* `build_repo_tree` (lines 72-132): builds the nested dict-of-dicts tree
  and runs the `aggregate_counts` pass over it. A Python dict is a finite
  map with unique keys; its insertion order is never observable in this
  program (the renderer sorts the keys, the aggregation pass takes a sum,
  and dict equality ignores order), so the `children` dict is modelled as
  an association list kept ordered by key: the membership test, creation
  and lookup of `current_node["children"][part]` fuse into `updOrInsert`,
  which applies the continuation to the stored node when the key is
  present and otherwise creates the fresh node at its ordered position,
  exactly as the dict's key-unique semantics prescribes.

* `print_tree` (lines 135-167): the renderer. Python's `print` emits one
  line per call, so the renderer returns the list of emitted lines.
  Because the node dict is passed by reference and could in principle be
  mutated by the call, the embedding also threads the node state through
  the recursion and returns the post-call tree, which makes the read-only
  character of the code a provable statement instead of an artifact of
  the embedding. Python's `sorted` over the dict keys is modelled by the
  insertion sort `sortPairs` on the association list, comparing keys with
  `strLtB`, the code-point lexicographic order Python uses on `str`
  (proved below to agree with the standard order on `String`).
-/

namespace Changes

/-! ### Python string primitives, modelled over `List Char` -/

/-- Code-point lexicographic comparison of character lists: Python's `<`
on `str`. -/
def listLtB : List Char → List Char → Bool
  | [], [] => false
  | [], _ :: _ => true
  | _ :: _, [] => false
  | a :: as, b :: bs => if a < b then true else if b < a then false else listLtB as bs

/-- Python's `<` on `str`, used by `sorted`. -/
def strLtB (a b : String) : Bool := listLtB a.data b.data

/-- Splitting a character list on a separator character; Python's
`str.split(sep)` for a one-character separator. Empty fragments are kept,
as Python keeps them: `"a//b".split('/') == ['a', '', 'b']`. -/
def splitChar (sep : Char) : List Char → List (List Char)
  | [] => [[]]
  | c :: cs =>
    match splitChar sep cs with
    | [] => [[]]
    | h :: t => if c = sep then [] :: h :: t else (c :: h) :: t

/-- `file_path.split('/')` of line 105. -/
def pySplit (s : String) (sep : Char) : List String :=
  (splitChar sep s.data).map String.mk

/-- The whitespace characters Python's `str.strip` removes. -/
def isPySpace (c : Char) : Bool :=
  c = ' ' || c = '\t' || c = '\n' || c = '\r' || c = '\x0b' || c = '\x0c'

/-- `line.strip()` of line 54. -/
def pyStrip (s : String) : String :=
  String.mk (((s.data.dropWhile isPySpace).reverse.dropWhile isPySpace).reverse)

/-- `output.splitlines()` of line 53 (see the modelling note above). -/
def pySplitLines (s : String) : List String := pySplit s '\n'

/-- `file_path.startswith(relative_path)` of line 61. -/
def startsWithL : List Char → List Char → Bool
  | _, [] => true
  | [], _ :: _ => false
  | c :: cs, p :: ps => if c = p then startsWithL cs ps else false

/-- `file_path[len(relative_path):].lstrip('/')` of line 64. -/
def stripRelPath (file_path relative_path : String) : String :=
  String.mk ((file_path.data.drop relative_path.data.length).dropWhile (fun c => c = '/'))

/-! ### `get_commit_touch_counts`: the counting loop (lines 51-69) -/

/-- `changes_count[file_path] += 1` on the `defaultdict(int)`: increment
if present, else append a fresh entry with value 1 (a fresh `int` entry
defaults to 0 and is immediately incremented). -/
def bumpCount : List (String × Nat) → String → List (String × Nat)
  | [], k => [(k, 1)]
  | (k1, v) :: rest, k =>
    if k = k1 then (k1, v + 1) :: rest else (k1, v) :: bumpCount rest k

/-- The body of the loop of lines 53-67 for a single line of git output.
`relative_path = none` or `some ""` are both falsy for the
`if relative_path:` test, as in Python (`argparse` leaves the option at
`None` when absent). -/
def touchLine (relative_path : Option String) (acc : List (String × Nat))
    (line : String) : List (String × Nat) :=
  let file_path := pyStrip line
  if file_path = "" then acc
  else
    match relative_path with
    | some rp =>
      if rp = "" then bumpCount acc file_path
      else if startsWithL file_path.data rp.data then
        let fp := stripRelPath file_path rp
        if fp = "" then acc else bumpCount acc fp
      else acc
    | none => bumpCount acc file_path

/-- The pure core of `get_commit_touch_counts` (lines 51-69): count how
many lines of the raw git output name each file, optionally filtered and
re-rooted by `relative_path`. -/
def get_commit_touch_counts (output : String) (relative_path : Option String) :
    List (String × Nat) :=
  (pySplitLines output).foldl (touchLine relative_path) []

/-! ### The tree structure of `build_repo_tree` -/

/-- The nested dict structure built by `build_repo_tree`:
`{"name": ..., "count": ..., "children": {...}}`. -/
inductive Tree where
  | node (name : String) (count : Nat) (children : List (String × Tree))

def Tree.name : Tree → String
  | .node n _ _ => n

def Tree.count : Tree → Nat
  | .node _ c _ => c

def Tree.children : Tree → List (String × Tree)
  | .node _ _ cs => cs

/-- Lookup in a `children` dict (`node["children"][part]`). -/
def lookupChild : List (String × Tree) → String → Option Tree
  | [], _ => none
  | (k, t) :: rest, p => if p = k then some t else lookupChild rest p

/-- The subtree reached from `t` by following a list of child keys. -/
def nodeAt : Tree → List String → Option Tree
  | t, [] => some t
  | t, p :: ps => match lookupChild t.children p with
    | none => none
    | some c => nodeAt c ps

/-- The dict update of lines 109-117 for one path part: if `p` is a key
of the dict, apply the continuation `f` (the walk over the remaining
parts) to the stored node; otherwise create the missing node — `dflt` is
the continuation applied to the fresh `{"name": p, "count": 0,
"children": {}}` — at its ordered position (see the modelling note). -/
def updOrInsert (p : String) (f : Tree → Tree) (dflt : Tree) :
    List (String × Tree) → List (String × Tree)
  | [] => [(p, dflt)]
  | (k1, t1) :: rest =>
    if p = k1 then (k1, f t1) :: rest
    else if strLtB p k1 then (p, dflt) :: (k1, t1) :: rest
    else (k1, t1) :: updOrInsert p f dflt rest

/-- One `(file_path, ccount)` iteration of the insertion loop of
`build_repo_tree` (lines 104-121): walk the path parts from the current
node, creating absent child nodes, and add `ccount` to the count of the
node reached at the final part. -/
def insertParts : List String → Nat → Tree → Tree
  | [], k, .node n c cs => .node n (c + k) cs
  | p :: ps, k, .node n c cs =>
    .node n c (updOrInsert p (insertParts ps k) (insertParts ps k (Tree.node p 0 [])) cs)

/-- The insertion phase of `build_repo_tree` (lines 98-121): the root
node `{"name": base_path, "count": 0, "children": {}}` after the loop
over `touch_counts.items()`. -/
def insertAll (base_path : String) (touch_counts : List (String × Nat)) : Tree :=
  touch_counts.foldl (fun t pc => insertParts (pySplit pc.1 '/') pc.2 t)
    (Tree.node base_path 0 [])

/-- Sum of the counts stored in a `children` dict. -/
def sumCounts (cs : List (String × Tree)) : Nat :=
  (cs.map (fun kt => kt.2.count)).sum

mutual
/-- `aggregate_counts` (lines 124-131): recursively aggregate every
child, then set the node's count to its own count plus the sum of the
values returned for the children (the value returned for a child is its
new count). -/
def aggregate_counts : Tree → Tree
  | .node nm c cs =>
    let cs' := aggList cs
    .node nm (c + sumCounts cs') cs'

/-- The loop of line 126 over the `children` dict. -/
def aggList : List (String × Tree) → List (String × Tree)
  | [] => []
  | (k, t) :: rest => (k, aggregate_counts t) :: aggList rest
end

/-- `build_repo_tree` (lines 72-132): insertion phase, then the
aggregation pass. -/
def build_repo_tree (base_path : String) (touch_counts : List (String × Nat)) : Tree :=
  aggregate_counts (insertAll base_path touch_counts)

/-! ### `print_tree` (lines 135-167) -/

/-- Stable insertion into a key-sorted association list. -/
def insertSorted (x : String × Tree) : List (String × Tree) → List (String × Tree)
  | [] => [x]
  | y :: ys => if strLtB y.1 x.1 then y :: insertSorted x ys else x :: y :: ys

/-- `sorted(node["children"].keys())` of line 161, fused with the lookup
of line 165: sort the `children` entries by key, ascending in Python's
string order. -/
def sortPairs : List (String × Tree) → List (String × Tree)
  | [] => []
  | x :: xs => insertSorted x (sortPairs xs)

theorem sizeOf_insertSorted (x : String × Tree) (l : List (String × Tree)) :
    sizeOf (insertSorted x l) = 1 + sizeOf x + sizeOf l := by
  induction l with
  | nil => simp [insertSorted]
  | cons y ys ih =>
    simp only [insertSorted]
    split
    all_goals simp only [List.cons.sizeOf_spec, ih]
    all_goals omega

theorem sizeOf_sortPairs (l : List (String × Tree)) : sizeOf (sortPairs l) = sizeOf l := by
  induction l with
  | nil => rfl
  | cons x xs ih =>
    simp only [sortPairs, sizeOf_insertSorted, ih, List.cons.sizeOf_spec]

mutual
/-- `print_tree` (lines 135-167). Returns the emitted lines together
with the state of the node after the call (the node is only read, which
the theorems below make explicit). A line is printed unless the name is
the root sentinel `"."`; the children are then traversed in sorted key
order with the prefix extended by `"    "` or `"│   "` according to
`is_last`. -/
def print_tree : Tree → String → Bool → List String × Tree
  | .node nm c cs, pre, is_last =>
    let self : List String :=
      if nm = "." then [] else
        [pre ++ (if is_last then "└──" else "├──") ++ " " ++ nm ++ " (" ++ toString c ++ ")"]
    let r := printChildren (sortPairs cs) (pre ++ (if is_last then "    " else "│   "))
    (self ++ r.1, .node nm c r.2)
termination_by t _ _ => sizeOf t
decreasing_by
  simp only [Tree.node.sizeOf_spec, sizeOf_sortPairs]; omega

/-- The loop of lines 164-167: render each child of the (sorted)
`children` entries, passing `child_is_last = (i == len(children_keys) - 1)`,
i.e. true exactly for the final entry. -/
def printChildren : List (String × Tree) → String → List String × List (String × Tree)
  | [], _ => ([], [])
  | (k, t) :: rest, np =>
    let r := print_tree t np rest.isEmpty
    let rr := printChildren rest np
    (r.1 ++ rr.1, (k, r.2) :: rr.2)
termination_by l _ => sizeOf l
decreasing_by
  all_goals simp [Prod.mk.sizeOf_spec, List.cons.sizeOf_spec]
  omega
end

/-! ### `main` (lines 170-199) -/

/-- The text `main` writes to stdout, given the raw git output (the part
of `main` before line 185 — argument parsing and path handling — stays
outside the embedding): a `print` per line for the tree, after the
header, or the `"No changes to display"` message when the returned
mapping is empty (`if counts:` on a dict tests non-emptiness). -/
def main_output (repo_path : String) (relative_path : Option String)
    (gitOutput : String) : String :=
  let counts := get_commit_touch_counts gitOutput relative_path
  if counts.isEmpty then "No changes to display" ++ "\n"
  else
    let header := match relative_path with
      | some rp =>
        if rp ≠ "" then "Changes Tree for " ++ "\n" ++ repo_path ++ "/" ++ rp ++ ":" ++ "\n"
        else "Changes Tree for " ++ repo_path ++ ":" ++ "\n"
      | none => "Changes Tree for " ++ repo_path ++ ":" ++ "\n"
    header ++
      ((print_tree (build_repo_tree "." counts) "" true).1.foldr
        (fun l acc => l ++ "\n" ++ acc) "")

/-! ### The comparison `strLtB` is the standard lexicographic order -/

theorem listLtB_iff_lex :
    ∀ as bs : List Char, listLtB as bs = true ↔ List.Lex (· < ·) as bs := by
  intro as
  induction as with
  | nil =>
    intro bs
    cases bs with
    | nil => simp [listLtB]
    | cons b bs => simp [listLtB]; exact List.Lex.nil
  | cons a as ih =>
    intro bs
    cases bs with
    | nil => simp [listLtB, List.Lex.not_nil_right]
    | cons b bs =>
      simp only [listLtB]
      rcases lt_trichotomy a b with h | h | h
      · simp only [h, if_pos, true_iff]
        exact List.Lex.rel h
      · subst h
        simp only [lt_irrefl, if_neg, ite_self, not_false_iff]
        rw [ih bs, List.Lex.cons_iff]
      · rw [if_neg (asymm h), if_pos h]
        constructor
        · intro habs; exact absurd habs (by simp)
        · intro hlex
          cases hlex with
          | rel h' => exact absurd h' (asymm h)
          | cons h' => exact absurd rfl (ne_of_gt h)

theorem strLtB_iff_lt (a b : String) : strLtB a b = true ↔ a < b := by
  rw [strLtB, listLtB_iff_lex, String.lt_iff_toList_lt]
  exact Iff.rfl

theorem strLtB_eq_false_iff_le (a b : String) : strLtB a b = false ↔ b ≤ a := by
  rw [← not_lt, ← strLtB_iff_lt, Bool.not_eq_true, Bool.eq_false_iff, ne_eq,
    Bool.not_eq_true]

/-! ### Sortedness of the renderer's key ordering -/

theorem insertSorted_perm (x : String × Tree) (l : List (String × Tree)) :
    (insertSorted x l).Perm (x :: l) := by
  induction l with
  | nil => exact List.Perm.refl _
  | cons y ys ih =>
    simp only [insertSorted]
    split
    · exact (ih.cons y).trans (List.Perm.swap x y ys)
    · exact List.Perm.refl _

theorem sortPairs_perm (l : List (String × Tree)) : (sortPairs l).Perm l := by
  induction l with
  | nil => exact List.Perm.refl _
  | cons x xs ih => exact (insertSorted_perm x (sortPairs xs)).trans (ih.cons x)

theorem mem_insertSorted {z x : String × Tree} {l : List (String × Tree)}
    (h : z ∈ insertSorted x l) : z = x ∨ z ∈ l := by
  have := (insertSorted_perm x l).mem_iff.mp h
  simpa using this

/-- Key of a `children` entry is `≤` the key of a later entry. -/
def KeyLe (a b : String × Tree) : Prop := a.1 ≤ b.1

theorem pairwise_insertSorted {x : String × Tree} {l : List (String × Tree)}
    (h : l.Pairwise KeyLe) : (insertSorted x l).Pairwise KeyLe := by
  induction l with
  | nil => simp [insertSorted]
  | cons y ys ih =>
    simp only [insertSorted]
    rcases List.pairwise_cons.mp h with ⟨hy, hys⟩
    split
    · rename_i hlt
      refine List.pairwise_cons.mpr ⟨?_, ih hys⟩
      intro z hz
      rcases mem_insertSorted hz with rfl | hz
      · exact le_of_lt ((strLtB_iff_lt y.1 z.1).mp hlt)
      · exact hy z hz
    · rename_i hnlt
      refine List.pairwise_cons.mpr ⟨?_, h⟩
      intro z hz
      have hxy : x.1 ≤ y.1 :=
        (strLtB_eq_false_iff_le y.1 x.1).mp (Bool.eq_false_iff.mpr hnlt)
      rcases List.mem_cons.mp hz with rfl | hz
      · exact hxy
      · exact le_trans hxy (hy z hz)

theorem sortPairs_pairwise (l : List (String × Tree)) : (sortPairs l).Pairwise KeyLe := by
  induction l with
  | nil => simp [sortPairs]
  | cons x xs ih => exact pairwise_insertSorted ih

theorem sortPairs_keys_sorted (l : List (String × Tree)) :
    ((sortPairs l).map Prod.fst).Sorted (· ≤ ·) := by
  rw [List.Sorted, List.pairwise_map]
  exact sortPairs_pairwise l

/-! ### Order facts for `strLtB` -/

theorem strLtB_irrefl (a : String) : strLtB a a = false := by
  rw [strLtB_eq_false_iff_le]

theorem strLtB_asymm {a b : String} (h : strLtB a b = true) : strLtB b a = false := by
  rw [strLtB_iff_lt] at h
  rw [strLtB_eq_false_iff_le]
  exact le_of_lt h

theorem strLtB_total {a b : String} (h : a ≠ b) :
    strLtB a b = true ∨ strLtB b a = true := by
  rcases lt_or_gt_of_ne h with h' | h'
  · exact Or.inl ((strLtB_iff_lt a b).mpr h')
  · exact Or.inr ((strLtB_iff_lt b a).mpr h')

theorem strLtB_trans {a b c : String} (h1 : strLtB a b = true)
    (h2 : strLtB b c = true) : strLtB a c = true := by
  rw [strLtB_iff_lt] at h1 h2 ⊢
  exact lt_trans h1 h2

/-! ### The insertion loop commutes: dict updates at distinct keys are
independent, and updates at the same key compose -/

theorem updOrInsert_same (p : String) (f1 f2 : Tree → Tree) (d1 d2 : Tree)
    (cs : List (String × Tree)) :
    updOrInsert p f2 d2 (updOrInsert p f1 d1 cs) =
      updOrInsert p (fun t => f2 (f1 t)) (f2 d1) cs := by
  induction cs with
  | nil => simp [updOrInsert]
  | cons y rest ih =>
    obtain ⟨k1, t1⟩ := y
    by_cases h1 : p = k1
    · simp [updOrInsert, h1]
    · by_cases h2 : strLtB p k1
      · simp [updOrInsert, h1, h2]
      · simp [updOrInsert, h1, h2, ih]

theorem updOrInsert_diff {p1 p2 : String} (hne : p1 ≠ p2)
    (f1 f2 : Tree → Tree) (d1 d2 : Tree) (cs : List (String × Tree)) :
    updOrInsert p2 f2 d2 (updOrInsert p1 f1 d1 cs) =
      updOrInsert p1 f1 d1 (updOrInsert p2 f2 d2 cs) := by
  induction cs with
  | nil =>
    rcases strLtB_total hne with h | h
    · simp [updOrInsert, hne, hne.symm, h, strLtB_asymm h]
    · simp [updOrInsert, hne, hne.symm, h, strLtB_asymm h]
  | cons y rest ih =>
    obtain ⟨k, t⟩ := y
    by_cases ha : p1 = k
    · subst ha
      by_cases hb : strLtB p2 p1
      · simp [updOrInsert, hne, hne.symm, hb, strLtB_asymm hb]
      · simp [updOrInsert, hne, hne.symm, hb]
    · by_cases hb : strLtB p1 k
      · -- p1 precedes k
        by_cases hc : p2 = k
        · subst hc
          simp [updOrInsert, hne, hne.symm, ha, hb, strLtB_asymm hb]
        · rcases strLtB_total hne with hd | hd
          · -- p1 < p2
            by_cases he : strLtB p2 k
            · simp [updOrInsert, hne, hne.symm, ha, hb, hc, hd, he, strLtB_asymm hd]
            · simp [updOrInsert, hne, hne.symm, ha, hb, hc, hd, he, strLtB_asymm hd,
                strLtB_asymm hb]
          · -- p2 < p1, hence p2 < k
            have he : strLtB p2 k = true := strLtB_trans hd hb
            simp [updOrInsert, hne, hne.symm, ha, hb, hc, hd, he, strLtB_asymm hd]
      · -- k precedes p1
        by_cases hc : p2 = k
        · subst hc
          simp [updOrInsert, hne, hne.symm, ha, hb]
        · by_cases he : strLtB p2 k
          · -- p2 < k < p1
            have hd : strLtB p1 p2 = false := by
              rcases strLtB_total hne with h | h
              · exfalso
                have : strLtB p1 k = true := strLtB_trans h he
                simp [this] at hb
              · exact strLtB_asymm h
            simp [updOrInsert, hne, hne.symm, ha, hb, hc, he, hd]
          · simp [updOrInsert, hne, hne.symm, ha, hb, hc, he, ih]

theorem insertParts_comm (ps1 : List String) :
    ∀ (ps2 : List String) (k1 k2 : Nat) (t : Tree),
      insertParts ps2 k2 (insertParts ps1 k1 t) =
        insertParts ps1 k1 (insertParts ps2 k2 t) := by
  induction ps1 with
  | nil =>
    intro ps2 k1 k2 t
    obtain ⟨n, c, cs⟩ := t
    cases ps2 with
    | nil => simp [insertParts]; omega
    | cons p2 ps2 => simp [insertParts]
  | cons p1 ps1 ih =>
    intro ps2 k1 k2 t
    obtain ⟨n, c, cs⟩ := t
    cases ps2 with
    | nil => simp [insertParts]
    | cons p2 ps2 =>
      simp only [insertParts, Tree.node.injEq, true_and]
      by_cases hpp : p1 = p2
      · subst hpp
        rw [updOrInsert_same, updOrInsert_same]
        have hf : (fun t => insertParts ps2 k2 (insertParts ps1 k1 t)) =
            (fun t => insertParts ps1 k1 (insertParts ps2 k2 t)) := by
          funext u
          exact ih ps2 k1 k2 u
        rw [hf, ih ps2 k1 k2]
      · exact updOrInsert_diff hpp _ _ _ _ cs

end Changes

namespace Changes

/-! ### Count totals through insertion and aggregation -/

mutual
/-- Sum of all counts stored anywhere in a tree. -/
def totalCount : Tree → Nat
  | .node _ c cs => c + totalList cs

def totalList : List (String × Tree) → Nat
  | [] => 0
  | (_, t) :: rest => totalCount t + totalList rest
end

theorem totalList_updOrInsert (p : String) (f : Tree → Tree) (d : Tree)
    (k : Nat) (hf : ∀ t, totalCount (f t) = totalCount t + k)
    (hd : totalCount d = k) (cs : List (String × Tree)) :
    totalList (updOrInsert p f d cs) = totalList cs + k := by
  induction cs with
  | nil => simp [updOrInsert, totalList, hd]
  | cons y rest ih =>
    obtain ⟨k1, t1⟩ := y
    by_cases h1 : p = k1
    · simp [updOrInsert, h1, totalList, hf]
      omega
    · by_cases h2 : strLtB p k1
      · simp [updOrInsert, h1, h2, totalList, hd]
        omega
      · simp [updOrInsert, h1, h2, totalList, ih]
        omega

theorem totalCount_insertParts (ps : List String) (k : Nat) :
    ∀ t : Tree, totalCount (insertParts ps k t) = totalCount t + k := by
  induction ps with
  | nil =>
    intro t
    obtain ⟨n, c, cs⟩ := t
    simp [insertParts, totalCount]
    omega
  | cons p ps ih =>
    intro t
    obtain ⟨n, c, cs⟩ := t
    simp only [insertParts, totalCount]
    rw [totalList_updOrInsert p _ _ k ih (by simp [ih, totalCount, totalList])]
    omega

theorem totalCount_insertAll (base : String) (tc : List (String × Nat)) :
    totalCount (insertAll base tc) = (tc.map Prod.snd).sum := by
  suffices h : ∀ t : Tree,
      totalCount (tc.foldl (fun t pc => insertParts (pySplit pc.1 '/') pc.2 t) t) =
        totalCount t + (tc.map Prod.snd).sum by
    rw [insertAll, h]
    simp [totalCount, totalList]
  induction tc with
  | nil => intro t; simp
  | cons pc rest ih =>
    intro t
    simp only [List.foldl_cons, List.map_cons, List.sum_cons]
    rw [ih, totalCount_insertParts]
    omega

mutual
theorem aggregate_counts_count : ∀ t : Tree, (aggregate_counts t).count = totalCount t
  | .node nm c cs => by
    simp only [aggregate_counts, Tree.count, totalCount, sumCounts_aggList cs]

theorem sumCounts_aggList : ∀ cs : List (String × Tree),
    sumCounts (aggList cs) = totalList cs
  | [] => by simp [aggList, sumCounts, totalList]
  | (k, t) :: rest => by
    simp only [aggList, sumCounts, List.map_cons, List.sum_cons, totalList]
    rw [← sumCounts, sumCounts_aggList rest, aggregate_counts_count t]
end

/-! ### Insertion order of the input mapping is irrelevant -/

theorem foldl_insert_perm {l1 l2 : List (String × Nat)} (h : l1.Perm l2) :
    ∀ t : Tree,
      l1.foldl (fun t pc => insertParts (pySplit pc.1 '/') pc.2 t) t =
        l2.foldl (fun t pc => insertParts (pySplit pc.1 '/') pc.2 t) t := by
  induction h with
  | nil => intro t; rfl
  | cons x h ih => intro t; simp only [List.foldl_cons]; exact ih _
  | swap x y l => intro t; simp only [List.foldl_cons]; rw [insertParts_comm]
  | trans h1 h2 ih1 ih2 => intro t; rw [ih1, ih2]

theorem insertAll_perm {tc1 tc2 : List (String × Nat)} (h : tc1.Perm tc2)
    (base : String) : insertAll base tc1 = insertAll base tc2 := by
  rw [insertAll, insertAll]
  exact foldl_insert_perm h _

end Changes

namespace Changes

/-! ### Aggregation acts pointwise on the tree structure -/

theorem lookupChild_aggList (cs : List (String × Tree)) (p : String) :
    lookupChild (aggList cs) p = (lookupChild cs p).map aggregate_counts := by
  induction cs with
  | nil => rfl
  | cons y rest ih =>
    obtain ⟨k, t⟩ := y
    by_cases h : p = k <;> simp [aggList, lookupChild, h, ih]

theorem nodeAt_aggregate (q : List String) :
    ∀ t : Tree, nodeAt (aggregate_counts t) q = (nodeAt t q).map aggregate_counts := by
  induction q with
  | nil => intro t; rfl
  | cons p ps ih =>
    intro t
    obtain ⟨n, c, cs⟩ := t
    show nodeAt (Tree.node n (c + sumCounts (aggList cs)) (aggList cs)) (p :: ps) = _
    simp only [nodeAt, Tree.children, lookupChild_aggList]
    cases h : lookupChild cs p with
    | none => simp
    | some u => simp [ih u]

theorem aggregate_counts_children_sum (s : Tree) :
    (aggregate_counts s).count = s.count + sumCounts (aggregate_counts s).children := by
  obtain ⟨n, c, cs⟩ := s
  simp [aggregate_counts, Tree.count, Tree.children]

/-! ### Claim theorems: the tree builder -/

/-- C1: for every path/count mapping fed to `build_repo_tree`, the root's
aggregated count equals the sum of all counts of the mapping, and the
resulting tree is identical for any reordering (any iteration order) of
the mapping's entries. -/
theorem c1_root_sum_and_order_irrelevance (base : String)
    (tc1 tc2 : List (String × Nat)) (h : tc1.Perm tc2) :
    build_repo_tree base tc1 = build_repo_tree base tc2 ∧
    (build_repo_tree base tc1).count = (tc1.map Prod.snd).sum := by
  constructor
  · rw [build_repo_tree, build_repo_tree, insertAll_perm h]
  · rw [build_repo_tree, aggregate_counts_count, totalCount_insertAll]

/-- C1 witness: the two orders of `{"a": 1, "b": 2}` build the same
tree, whose root count is 3. -/
theorem c1_witness :
    build_repo_tree "." [("b", 2), ("a", 1)] = build_repo_tree "." [("a", 1), ("b", 2)] ∧
    (build_repo_tree "." [("b", 2), ("a", 1)]).count = 3 :=
  ⟨(c1_root_sum_and_order_irrelevance "." [("b", 2), ("a", 1)] [("a", 1), ("b", 2)]
      (List.Perm.swap ("a", 1) ("b", 2) [])).1,
   ((c1_root_sum_and_order_irrelevance "." [("b", 2), ("a", 1)] [("a", 1), ("b", 2)]
      (List.Perm.swap ("a", 1) ("b", 2) [])).2).trans (by decide)⟩

/-- C2 counterexample: on input `{"a": 1, "a/b": 2}` the node `"a"` is a
directory node (non-empty children) whose aggregated count 3 differs from
the sum 2 of its children's counts, because the count inserted directly
at `"a"` also enters the aggregate. -/
theorem c2_counterexample :
    ∃ s : Tree, nodeAt (build_repo_tree "." [("a", 1), ("a/b", 2)]) ["a"] = some s ∧
      s.children ≠ [] ∧ s.count ≠ sumCounts s.children := by
  refine ⟨Tree.node "a" 3 [("b", Tree.node "b" 2 [])], rfl, by simp [Tree.children], by decide⟩

/-- C2 amended: after the aggregation pass, every node of the built tree
has count equal to the count the insertion phase assigned directly to it
plus the sum of its children's counts; for a directory node this is the
sum of the children's counts exactly when no input path ended at the
directory itself. -/
theorem c2_directory_count_invariant (base : String) (tc : List (String × Nat))
    (q : List String) (s : Tree) (h : nodeAt (insertAll base tc) q = some s) :
    nodeAt (build_repo_tree base tc) q = some (aggregate_counts s) ∧
    (aggregate_counts s).count = s.count + sumCounts (aggregate_counts s).children := by
  refine ⟨?_, aggregate_counts_children_sum s⟩
  rw [build_repo_tree, nodeAt_aggregate, h, Option.map_some']

/-- C2 witness: the invariant instantiated at node `"a"` of the tree
built from `{"a": 1, "a/b": 2}`. -/
theorem c2_witness :
    nodeAt (build_repo_tree "." [("a", 1), ("a/b", 2)]) ["a"] =
      some (aggregate_counts (Tree.node "a" 1 [("b", Tree.node "b" 2 [])])) ∧
    (aggregate_counts (Tree.node "a" 1 [("b", Tree.node "b" 2 [])])).count =
      (Tree.node "a" 1 [("b", Tree.node "b" 2 [])]).count +
        sumCounts (aggregate_counts (Tree.node "a" 1 [("b", Tree.node "b" 2 [])])).children :=
  c2_directory_count_invariant "." [("a", 1), ("a/b", 2)] ["a"]
    (Tree.node "a" 1 [("b", Tree.node "b" 2 [])]) rfl

/-- C3 counterexample: `{"a//b": 5}` does not build the same tree as
`{"a/b": 5}` — the former contains a node named `""` (reached by the key
path `["a", ""]`) and has no node at the key path `["a", "b"]`, which is
where the latter stores its leaf. -/
theorem c3_counterexample :
    (nodeAt (build_repo_tree "." [("a//b", 5)]) ["a", "", "b"]).isSome = true ∧
    (nodeAt (build_repo_tree "." [("a//b", 5)]) ["a", ""]).map Tree.name = some "" ∧
    nodeAt (build_repo_tree "." [("a//b", 5)]) ["a", "b"] = none ∧
    nodeAt (build_repo_tree "." [("a/b", 5)]) ["a", "b"] = some (Tree.node "b" 5 []) :=
  ⟨rfl, rfl, rfl, rfl⟩

/-- C3 amended: the builder keeps empty segments produced by splitting on
`'/'`: `"a//b"` splits into `["a", "", "b"]` and yields a three-level
chain containing a node whose name is the empty string, a different tree
from the two-level chain `"a/b"` yields. -/
theorem c3_empty_segments_kept :
    pySplit "a//b" '/' = ["a", "", "b"] ∧
    build_repo_tree "." [("a//b", 5)] =
      Tree.node "." 5
        [("a", Tree.node "a" 5 [("", Tree.node "" 5 [("b", Tree.node "b" 5 [])])])] ∧
    build_repo_tree "." [("a/b", 5)] =
      Tree.node "." 5 [("a", Tree.node "a" 5 [("b", Tree.node "b" 5 [])])] :=
  ⟨rfl, rfl, rfl⟩

/-- C8: the empty input mapping builds a root with count 0 and no
children, and rendering it produces no output lines. -/
theorem c8_empty_input :
    build_repo_tree "." [] = Tree.node "." 0 [] ∧
    (print_tree (build_repo_tree "." []) "" true).1 = [] := by
  refine ⟨rfl, ?_⟩
  show (print_tree (Tree.node "." 0 []) "" true).1 = []
  simp [print_tree, printChildren, sortPairs]

end Changes

namespace Changes

/-! ### Claim theorems: the renderer -/

/-- C4 counterexample: rendering the tree of `{"a": 1}` from `main`'s
call (`prefix=""`, `is_last=True`) indents the top-level child by four
spaces — the prefix is extended before recursing even for the skipped
root — instead of starting it at the empty prefix with no indentation. -/
theorem c4_counterexample :
    (print_tree (build_repo_tree "." [("a", 1)]) "" true).1 = ["    └── a (1)"] ∧
    (print_tree (build_repo_tree "." [("a", 1)]) "" true).1 ≠ ["└── a (1)"] := by
  have h : (print_tree (build_repo_tree "." [("a", 1)]) "" true).1 = ["    └── a (1)"] := by
    show (print_tree (Tree.node "." 1 [("a", Tree.node "a" 1 [])]) "" true).1 = _
    simp [print_tree, printChildren, sortPairs, insertSorted]
    rfl
  refine ⟨h, ?_⟩
  rw [h]
  decide

/-- C4 amended: when the renderer is called on a node named `"."` with
`prefix=""` and `is_last=True` (as `main` calls it), no line is printed
for that node, and its children are rendered with the prefix `"    "`
(four spaces), so each top-level child's line begins with four spaces of
indentation before its connector. -/
theorem c4_root_children_prefix (c : Nat) (cs : List (String × Tree)) :
    (print_tree (Tree.node "." c cs) "" true).1 =
      (printChildren (sortPairs cs) "    ").1 := by
  rw [print_tree]
  simp

/-- C5 counterexample: a root built with the externally supplied base
label `"src"` is itself printed as a content line (the first output
line), refuting that the root is never printed for every root label. -/
theorem c5_counterexample :
    (print_tree (build_repo_tree "src" [("a", 1)]) "" true).1 =
      ["└── src (1)", "    └── a (1)"] := by
  show (print_tree (Tree.node "src" 1 [("a", Tree.node "a" 1 [])]) "" true).1 = _
  simp [print_tree, printChildren, sortPairs, insertSorted]
  refine ⟨rfl, rfl⟩

/-- C5 amended: the renderer skips a node's own line exactly when its
name is the sentinel `"."`; a root carrying any other label is printed
as a content line before its children. (In the shipped `main` the root
is always built with label `"."`, so it is never printed there.) -/
theorem c5_root_line_iff_sentinel (nm : String) (c : Nat) (cs : List (String × Tree))
    (pre : String) (il : Bool) :
    (print_tree (Tree.node nm c cs) pre il).1 =
      (if nm = "." then [] else
        [pre ++ (if il then "└──" else "├──") ++ " " ++ nm ++ " (" ++ toString c ++ ")"]) ++
      (printChildren (sortPairs cs) (pre ++ (if il then "    " else "│   "))).1 := by
  rw [print_tree]

/-- C6: the renderer visits the children of every node in ascending
lexicographic order of their names (no directory/file separation): the
traversed list `sortPairs cs` carries the keys sorted by the standard
(code-point) order on strings and is a permutation of the children; for
input `{"b": 1, "a": 2}` the line for `"a"` is printed before the line
for `"b"`. -/
theorem c6_sorted_traversal :
    (∀ (nm : String) (c : Nat) (cs : List (String × Tree)) (pre : String) (il : Bool),
      (print_tree (Tree.node nm c cs) pre il).1 =
        (if nm = "." then [] else
          [pre ++ (if il then "└──" else "├──") ++ " " ++ nm ++ " (" ++ toString c ++ ")"]) ++
        (printChildren (sortPairs cs) (pre ++ (if il then "    " else "│   "))).1) ∧
    (∀ cs : List (String × Tree),
      ((sortPairs cs).map Prod.fst).Sorted (· ≤ ·) ∧ (sortPairs cs).Perm cs) ∧
    (print_tree (build_repo_tree "." [("b", 1), ("a", 2)]) "" true).1 =
      ["    ├── a (2)", "    └── b (1)"] := by
  refine ⟨fun nm c cs pre il => c5_root_line_iff_sentinel nm c cs pre il,
    fun cs => ⟨sortPairs_keys_sorted cs, sortPairs_perm cs⟩, ?_⟩
  show (print_tree (Tree.node "." 3
    [("a", Tree.node "a" 2 []), ("b", Tree.node "b" 1 [])]) "" true).1 = _
  simp +decide [print_tree, printChildren, sortPairs, insertSorted, strLtB, listLtB]

end Changes

namespace Changes

/-- The shape of a rendered line:
`{prefix}{connector} {name} ({count})` with the connector one of the two
glyph pairs. -/
def LineShape (line : String) : Prop :=
  ∃ (pre nm : String) (last : Bool) (k : Nat),
    line = pre ++ (if last then "└──" else "├──") ++ " " ++ nm ++ " (" ++ toString k ++ ")"

theorem print_tree_line_shape (t : Tree) (pre : String) (il : Bool) :
    ∀ line ∈ (print_tree t pre il).1, LineShape line := by
  refine print_tree.induct
    (fun t pre il => ∀ line ∈ (print_tree t pre il).1, LineShape line)
    (fun l np => ∀ line ∈ (printChildren l np).1, LineShape line)
    ?_ ?_ ?_ t pre il
  · intro nm c cs pre il ih line hline
    rw [print_tree] at hline
    simp only [List.mem_append] at hline
    rcases hline with hline | hline
    · by_cases hnm : nm = "."
      · simp [hnm] at hline
      · rw [if_neg hnm] at hline
        simp only [List.mem_singleton] at hline
        exact ⟨pre, nm, il, c, hline⟩
    · exact ih line hline
  · intro np line hline
    rw [printChildren] at hline
    simp at hline
  · intro k u rest np ih1 ih2 line hline
    rw [printChildren] at hline
    simp only [List.mem_append] at hline
    rcases hline with hline | hline
    · exact ih1 line hline
    · exact ih2 line hline

/-- C7: every line the renderer writes has the exact form
`{prefix}{connector} {name} ({count})` with the connector either `└──`
or `├──` and nothing else; the loop hands `is_last = True` exactly to
the final entry of the sorted children (so `└──` appears exactly on last
siblings), and a non-root node's own line carries `└──` when it is last
and `├──` otherwise. -/
theorem c7_line_format (t : Tree) (pre : String) (il : Bool) :
    (∀ line ∈ (print_tree t pre il).1, LineShape line) ∧
    (∀ (k : String) (u : Tree) (rest : List (String × Tree)) (np : String),
      (printChildren ((k, u) :: rest) np).1 =
        (print_tree u np rest.isEmpty).1 ++ (printChildren rest np).1) ∧
    (∀ (nm : String) (c : Nat) (cs : List (String × Tree)), nm ≠ "." →
      (print_tree (Tree.node nm c cs) pre true).1.head? =
        some (pre ++ "└──" ++ " " ++ nm ++ " (" ++ toString c ++ ")") ∧
      (print_tree (Tree.node nm c cs) pre false).1.head? =
        some (pre ++ "├──" ++ " " ++ nm ++ " (" ++ toString c ++ ")")) := by
  refine ⟨print_tree_line_shape t pre il, ?_, ?_⟩
  · intro k u rest np
    rw [printChildren]
  · intro nm c cs hnm
    constructor <;> (rw [print_tree]; simp [hnm])

/-- C7 witness: the single line rendered for the leaf `"a"` has the
required shape. -/
theorem c7_witness : LineShape "└── a (1)" :=
  (c7_line_format (Tree.node "a" 1 []) "" true).1 "└── a (1)" (by
    simp [print_tree, printChildren, sortPairs]
    rfl)

/-! ### Well-formed trees: the image of Python dicts in this embedding -/

/-- The keys of a `children` association list are strictly ascending. -/
def keysSortedB : List String → Bool
  | [] => true
  | [_] => true
  | a :: b :: rest => strLtB a b && keysSortedB (b :: rest)

mutual
/-- A tree all of whose `children` lists are strictly key-sorted: the
representation invariant of the dict-as-ordered-association-list
modelling (every tree `build_repo_tree` produces satisfies it). -/
def wfTree : Tree → Bool
  | .node _ _ cs => keysSortedB (cs.map Prod.fst) && wfList cs

def wfList : List (String × Tree) → Bool
  | [] => true
  | (_, t) :: rest => wfTree t && wfList rest
end

theorem sortPairs_id_of_sorted :
    ∀ cs : List (String × Tree), keysSortedB (cs.map Prod.fst) = true → sortPairs cs = cs := by
  intro cs
  induction cs with
  | nil => intro _; rfl
  | cons x xs ih =>
    intro h
    cases xs with
    | nil => rfl
    | cons y ys =>
      have h' : strLtB x.1 y.1 = true ∧ keysSortedB ((y :: ys).map Prod.fst) = true := by
        simpa [keysSortedB, Bool.and_eq_true] using h
      rw [sortPairs, ih h'.2, insertSorted, if_neg]
      simp [strLtB_asymm h'.1]

theorem print_tree_post (t : Tree) (pre : String) (il : Bool) :
    wfTree t = true → (print_tree t pre il).2 = t := by
  refine print_tree.induct
    (fun t pre il => wfTree t = true → (print_tree t pre il).2 = t)
    (fun l np => wfList l = true → (printChildren l np).2 = l)
    ?_ ?_ ?_ t pre il
  · intro nm c cs pre il ih h
    have h' : keysSortedB (cs.map Prod.fst) = true ∧ wfList cs = true := by
      simpa [wfTree, Bool.and_eq_true] using h
    rw [print_tree]
    have hs := sortPairs_id_of_sorted cs h'.1
    simp only [dite_eq_ite] at ih
    rw [hs] at ih ⊢
    simp only [ih h'.2]
  · intro np _
    rw [printChildren]
  · intro k u rest np ih1 ih2 h
    have h' : wfTree u = true ∧ wfList rest = true := by
      simpa [wfList, Bool.and_eq_true] using h
    rw [printChildren]
    simp only
    rw [ih1 h'.1, ih2 h'.2]

/-- C9: the renderer is read-only and deterministic: on a well-formed
tree (the representation invariant of the children dicts) the tree state
after the call equals the tree passed in, and rendering the tree left
behind by a first call produces byte-identical output to the first
call's. -/
theorem c9_renderer_pure (t : Tree) (pre : String) (il : Bool) (h : wfTree t = true) :
    (print_tree t pre il).2 = t ∧
    (print_tree ((print_tree t pre il).2) pre il).1 = (print_tree t pre il).1 := by
  have hp := print_tree_post t pre il h
  exact ⟨hp, by rw [hp]⟩

/-- C9 witness: rendering a concrete two-node tree leaves it unchanged
and re-rendering gives the same output. -/
theorem c9_witness :
    (print_tree (Tree.node "." 0 [("a", Tree.node "a" 1 [])]) "" true).2 =
      Tree.node "." 0 [("a", Tree.node "a" 1 [])] ∧
    (print_tree ((print_tree (Tree.node "." 0 [("a", Tree.node "a" 1 [])]) "" true).2)
        "" true).1 =
      (print_tree (Tree.node "." 0 [("a", Tree.node "a" 1 [])]) "" true).1 :=
  c9_renderer_pure (Tree.node "." 0 [("a", Tree.node "a" 1 [])]) "" true (by decide)

end Changes

namespace Changes

/-! ### Claim theorems: the history collaborator's counting loop -/

theorem bumpCount_invariant {acc : List (String × Nat)} {k : String}
    (hacc : ∀ kv ∈ acc, kv.1 ≠ "" ∧ 1 ≤ kv.2) (hk : k ≠ "") :
    ∀ kv ∈ bumpCount acc k, kv.1 ≠ "" ∧ 1 ≤ kv.2 := by
  induction acc with
  | nil =>
    intro kv hkv
    simp only [bumpCount, List.mem_singleton] at hkv
    subst hkv
    exact ⟨hk, le_refl 1⟩
  | cons y rest ih =>
    obtain ⟨k1, v⟩ := y
    intro kv hkv
    by_cases h : k = k1
    · rw [bumpCount, if_pos h] at hkv
      rcases List.mem_cons.mp hkv with rfl | hkv
      · exact ⟨(hacc (k1, v) (List.mem_cons_self _ _)).1, by omega⟩
      · exact hacc kv (List.mem_cons_of_mem _ hkv)
    · rw [bumpCount, if_neg h] at hkv
      rcases List.mem_cons.mp hkv with rfl | hkv
      · exact hacc (k1, v) (List.mem_cons_self _ _)
      · exact ih (fun kv h => hacc kv (List.mem_cons_of_mem _ h)) kv hkv

theorem touchLine_invariant (rp : Option String) {acc : List (String × Nat)}
    (hacc : ∀ kv ∈ acc, kv.1 ≠ "" ∧ 1 ≤ kv.2) (line : String) :
    ∀ kv ∈ touchLine rp acc line, kv.1 ≠ "" ∧ 1 ≤ kv.2 := by
  simp only [touchLine]
  by_cases h0 : pyStrip line = ""
  · simpa [h0] using hacc
  · rw [if_neg h0]
    cases rp with
    | none => exact bumpCount_invariant hacc h0
    | some r =>
      by_cases hr : r = ""
      · simpa [hr] using bumpCount_invariant hacc h0
      · simp only [if_neg hr]
        by_cases hsw : startsWithL (pyStrip line).data r.data
        · rw [if_pos hsw]
          by_cases hfp : stripRelPath (pyStrip line) r = ""
          · simpa [hfp] using hacc
          · simpa [hfp] using bumpCount_invariant hacc hfp
        · simpa [hsw] using hacc

theorem get_commit_touch_counts_invariant (output : String) (rp : Option String) :
    ∀ kv ∈ get_commit_touch_counts output rp, kv.1 ≠ "" ∧ 1 ≤ kv.2 := by
  rw [get_commit_touch_counts]
  suffices h : ∀ (ls : List String) (acc : List (String × Nat)),
      (∀ kv ∈ acc, kv.1 ≠ "" ∧ 1 ≤ kv.2) →
      ∀ kv ∈ ls.foldl (touchLine rp) acc, kv.1 ≠ "" ∧ 1 ≤ kv.2 by
    exact h (pySplitLines output) [] (by simp)
  intro ls
  induction ls with
  | nil => intro acc hacc; simpa using hacc
  | cons l ls ih =>
    intro acc hacc
    simp only [List.foldl_cons]
    exact ih _ (touchLine_invariant rp hacc l)

/-- C10: every entry the history collaborator's counting loop returns
has a non-empty path and a count of at least 1 — no zero-count and no
empty-path entry is ever produced — and consequently `main` prints the
`"No changes to display"` message exactly when the returned mapping is
empty. -/
theorem c10_history_invariant (output : String) (rp : Option String) (repo : String) :
    (∀ kv ∈ get_commit_touch_counts output rp, kv.1 ≠ "" ∧ 1 ≤ kv.2) ∧
    (main_output repo rp output = "No changes to display" ++ "\n" ↔
      get_commit_touch_counts output rp = []) := by
  refine ⟨get_commit_touch_counts_invariant output rp, ?_⟩
  have hinv := get_commit_touch_counts_invariant output rp
  simp only [main_output]
  cases hemp : (get_commit_touch_counts output rp).isEmpty with
  | true =>
    simp only [if_pos rfl]
    simp [List.isEmpty_iff.mp hemp]
  | false =>
    have hne : get_commit_touch_counts output rp ≠ [] := by
      intro habs
      rw [habs] at hemp
      simp at hemp
    rw [if_neg (by simp [hemp])]
    refine iff_of_false ?_ hne
    intro habs
    cases rp with
    | none =>
      have hC : (some 'C' : Option Char) = some 'N' :=
        congrArg (fun s => s.data.head?) habs
      simp at hC
    | some r =>
      by_cases hr : r = ""
      · subst hr
        simp only [ne_eq, not_true_eq_false, Bool.false_eq_true, if_false, ite_false] at habs
        have hC : (some 'C' : Option Char) = some 'N' :=
          congrArg (fun s => s.data.head?) habs
        simp at hC
      · simp only [ne_eq, hr, not_false_eq_true, if_true, ite_true] at habs
        have hC : (some 'C' : Option Char) = some 'N' :=
          congrArg (fun s => s.data.head?) habs
        simp at hC

end Changes

namespace Changes

/-- C10 witness: the invariant instantiated on a concrete git output in
which `a.txt` is touched twice. -/
theorem c10_witness : ("a.txt" : String) ≠ "" ∧ 1 ≤ 2 :=
  (c10_history_invariant "a.txt\nb.txt\na.txt" none "/r").1 ("a.txt", 2) (by decide)

end Changes
